import Mathlib

/-!
Verification of the Space-Image-Based-Entropy-Generator core against its
natural-language specification.

Shallow embedding conventions:
* Python bytes are modelled as `List Nat` (each entry one byte value).
* The external cryptographic primitives (hashlib SHA-256, the blake3
  library, including its extensible-output digest) are not code of this
  repository; they are abstracted as a `HashModel`: arbitrary functions
  together with the output-length laws the libraries guarantee.
* Redis is modelled as an association list of keyed entries with a TTL,
  mirroring the three keyspaces the pool uses.
* The Validator computes with Python floats; it is embedded over the real
  numbers (exact arithmetic), which is the idealisation of the float code.
-/

set_option maxRecDepth 16000

namespace SpaceEntropy

/-- Bytes as produced and consumed by the Python code. -/
abbrev Bytes := List Nat

/-! ## Hash primitives (app/entropy/hashing.py)

`EntropyHasher.sha256_hash` and `EntropyHasher.blake3_hash` call into
hashlib / the blake3 package; `_extend_to_size` uses the blake3
extensible-output mode.  These library primitives are abstracted as an
arbitrary `HashModel` carrying the length guarantees of the libraries:
both digests are 32 bytes, and the extensible output has exactly the
requested length. -/

structure HashModel where
  blake3 : Bytes → Bytes
  sha256 : Bytes → Bytes
  xof : Bytes → Nat → Bytes
  blake3_len : ∀ d, (blake3 d).length = 32
  sha256_len : ∀ d, (sha256 d).length = 32
  xof_len : ∀ d n, (xof d n).length = n

/-- Embedding of struct.pack of a microsecond timestamp: the 8-byte
big-endian encoding used by EntropyHasher.hash_with_timestamp. -/
def tsbytes (t : Nat) : Bytes :=
  [t / 256 ^ 7 % 256, t / 256 ^ 6 % 256, t / 256 ^ 5 % 256, t / 256 ^ 4 % 256,
   t / 256 ^ 3 % 256, t / 256 ^ 2 % 256, t / 256 % 256, t % 256]

/-- Auxiliary loop of EntropyHasher.multi_round_hash: starting at round
index i, perform r more rounds, using BLAKE3 on even round indices and
SHA-256 on odd ones. -/
def multiRoundAux (M : HashModel) : Nat → Nat → Bytes → Bytes
  | _, 0, d => d
  | i, r + 1, d =>
      multiRoundAux M (i + 1) r (if i % 2 = 0 then M.blake3 d else M.sha256 d)

/-- Embedding of EntropyHasher.multi_round_hash. -/
def multiRoundHash (M : HashModel) (d : Bytes) (rounds : Nat) : Bytes :=
  multiRoundAux M 0 rounds d

/-- Embedding of EntropyHasher.hash_with_timestamp: append the 8-byte
big-endian timestamp and hash with BLAKE3. -/
def hashWithTimestamp (M : HashModel) (d : Bytes) (t : Nat) : Bytes :=
  M.blake3 (d ++ tsbytes t)

/-- Embedding of EntropyHasher.hash_chain applied to a given previous
chaining value: hash the previous value prepended to the data. -/
def hashChain (M : HashModel) (prev d : Bytes) : Bytes :=
  M.blake3 (prev ++ d)

/-- Embedding of EntropyHasher._extend_to_size. -/
def extendToSize (M : HashModel) (d : Bytes) (target : Nat) : Bytes :=
  if target ≤ d.length then d.take target else M.xof d target

/-- The i-th chunk of the raw buffer, as sliced by
EntropyHasher.extract_entropy_blocks. -/
def chunkAt (raw : Bytes) (chunkSize i : Nat) : Bytes :=
  (raw.drop (i * chunkSize)).take chunkSize

/-- Per-chunk loop of EntropyHasher.extract_entropy_blocks: whiten each
chunk with three hash rounds, mix in the chunk's timestamp, chain with
the previous chaining value, and expand to the block size.  `ts` gives
the wall-clock microsecond timestamp observed while processing each
chunk index; `prev` is the chaining value carried across chunks. -/
def condChunks (M : HashModel) (blockSize : Nat) (ts : Nat → Nat) :
    Nat → List Bytes → Bytes → List Bytes
  | _, [], _ => []
  | i, c :: cs, prev =>
      let hashed := multiRoundHash M c 3
      let timestamped := hashWithTimestamp M hashed (ts i)
      let chained := hashChain M prev timestamped
      extendToSize M chained blockSize :: condChunks M blockSize ts (i + 1) cs chained

/-- Embedding of EntropyHasher.extract_entropy_blocks.  `chain0` is the
chaining value held by the hasher instance when the call starts (32 zero
bytes on a fresh instance); `ts` is the timestamp observed for each chunk.
In the source, chunk_size = max(block_size, 1024) and
num_chunks = len(raw_data) // chunk_size are local names; they are inlined
here. -/
def extractEntropyBlocks (M : HashModel) (raw : Bytes) (blockSize : Nat)
    (ts : Nat → Nat) (chain0 : Bytes) : List Bytes :=
  if raw = [] then []
  else if raw.length / max blockSize 1024 = 0 then
    [extendToSize M (multiRoundHash M raw 3) blockSize]
  else
    condChunks M blockSize ts 0
      ((List.range (raw.length / max blockSize 1024)).map
        (chunkAt raw (max blockSize 1024))) chain0

/-- Pointwise XOR of two equal-length byte buffers, as in the in-place
loop of EntropyHasher.mix_sources. -/
def xorCombine (x y : Bytes) : Bytes :=
  List.zipWith Nat.xor x y

/-- Padding step of EntropyHasher.mix_sources: sources shorter than the
longest are extended by hashing, longer ones are truncated (the truncation
branch is the identity because maxLen is the maximum). -/
def padTo (M : HashModel) (maxLen : Nat) (d : Bytes) : Bytes :=
  if d.length < maxLen then extendToSize M d maxLen else d.take maxLen

/-- Embedding of EntropyHasher.mix_sources. -/
def mixSources (M : HashModel) : List Bytes → Bytes
  | [] => []
  | [d] => M.blake3 d
  | d :: d' :: rest =>
      let srcs := d :: d' :: rest
      let maxLen := (srcs.map List.length).foldr max 0
      let padded := srcs.map (padTo M maxLen)
      let mixed := (padded.tail).foldl xorCombine (padTo M maxLen d)
      M.blake3 mixed

/-! ### Basic length facts about the Conditioner -/

theorem extendToSize_length (M : HashModel) (d : Bytes) (target : Nat) :
    (extendToSize M d target).length = target := by
  unfold extendToSize
  split
  · simpa using Nat.min_eq_left (by assumption)
  · exact M.xof_len d target

theorem condChunks_length (M : HashModel) (b : Nat) (ts : Nat → Nat) :
    ∀ (i : Nat) (cs : List Bytes) (prev : Bytes),
      (condChunks M b ts i cs prev).length = cs.length := by
  intro i cs
  induction cs generalizing i with
  | nil => intro prev; rfl
  | cons c cs ih =>
      intro prev
      simp [condChunks, ih]

theorem mem_condChunks_length (M : HashModel) (b : Nat) (ts : Nat → Nat) :
    ∀ (i : Nat) (cs : List Bytes) (prev : Bytes) (blk : Bytes),
      blk ∈ condChunks M b ts i cs prev → blk.length = b := by
  intro i cs
  induction cs generalizing i with
  | nil => intro prev blk h; simp [condChunks] at h
  | cons c cs ih =>
      intro prev blk h
      simp only [condChunks, List.mem_cons] at h
      rcases h with h | h
      · subst h; exact extendToSize_length M _ b
      · exact ih (i + 1) _ blk h

/-- Concrete hash model used to instantiate witnesses: constant digests of
the right lengths. -/
def trivialHashModel : HashModel where
  blake3 := fun _ => List.replicate 32 0
  sha256 := fun _ => List.replicate 32 1
  xof := fun _ n => List.replicate n 0
  blake3_len := fun _ => by simp
  sha256_len := fun _ => by simp
  xof_len := fun _ _ => by simp

/-- Claim C4: for non-empty raw input of length L and target block size b,
with chunk_size = max(b, 1024), extract_entropy_blocks returns exactly one
block when L < chunk_size and exactly L / chunk_size blocks otherwise, and
every returned block is exactly b bytes long. -/
theorem extract_blocks_count_and_size (M : HashModel) (raw : Bytes) (b : Nat)
    (ts : Nat → Nat) (chain0 : Bytes) (hraw : raw ≠ []) :
    (raw.length < max b 1024 →
      (extractEntropyBlocks M raw b ts chain0).length = 1) ∧
    (max b 1024 ≤ raw.length →
      (extractEntropyBlocks M raw b ts chain0).length = raw.length / max b 1024) ∧
    (∀ blk ∈ extractEntropyBlocks M raw b ts chain0, blk.length = b) := by
  have hcs : 0 < max b 1024 := lt_of_lt_of_le (by norm_num) (le_max_right b 1024)
  unfold extractEntropyBlocks
  rw [if_neg hraw]
  by_cases h0 : raw.length / max b 1024 = 0
  · rw [if_pos h0]
    refine ⟨fun _ => rfl, fun hle => ?_, ?_⟩
    · exfalso
      have h1 : 1 ≤ raw.length / max b 1024 :=
        (Nat.le_div_iff_mul_le hcs).mpr (by omega)
      omega
    · intro blk hblk
      rcases List.mem_singleton.mp hblk with rfl
      exact extendToSize_length M _ b
  · rw [if_neg h0]
    refine ⟨fun hlt => ?_, fun _ => ?_, ?_⟩
    · exact absurd (Nat.div_eq_of_lt hlt) h0
    · rw [condChunks_length, List.length_map, List.length_range]
    · intro blk hblk
      exact mem_condChunks_length M b ts 0 _ chain0 blk hblk

/-- Witness for C4 at a concrete model and input: 3 raw bytes with block
size 8 fall below the chunk size and give one block of 8 bytes. -/
theorem extract_blocks_count_and_size_witness :
    ([3, 1, 4] : Bytes) ≠ [] ∧
    ((([3, 1, 4] : Bytes).length < max 8 1024 →
      (extractEntropyBlocks trivialHashModel [3, 1, 4] 8 (fun _ => 0)
        (List.replicate 32 0)).length = 1) ∧
    (max 8 1024 ≤ ([3, 1, 4] : Bytes).length →
      (extractEntropyBlocks trivialHashModel [3, 1, 4] 8 (fun _ => 0)
        (List.replicate 32 0)).length = ([3, 1, 4] : Bytes).length / max 8 1024) ∧
    (∀ blk ∈ extractEntropyBlocks trivialHashModel [3, 1, 4] 8 (fun _ => 0)
        (List.replicate 32 0), blk.length = 8)) :=
  ⟨by decide,
   extract_blocks_count_and_size trivialHashModel [3, 1, 4] 8 (fun _ => 0)
     (List.replicate 32 0) (by decide)⟩

/-- Claim C10: mix_sources returns the empty byte string on an empty source
list; on every non-empty list the result is one 32-byte BLAKE3 digest
regardless of the input lengths; and on a single-element list it is exactly
blake3 of that buffer, with no padding or XOR folding. -/
theorem mixSources_spec (M : HashModel) :
    mixSources M [] = [] ∧
    (∀ srcs : List Bytes, srcs ≠ [] → (mixSources M srcs).length = 32) ∧
    (∀ d : Bytes, mixSources M [d] = M.blake3 d) := by
  refine ⟨rfl, ?_, fun d => rfl⟩
  intro srcs h
  match srcs with
  | [d] => exact M.blake3_len d
  | d :: d' :: rest => exact M.blake3_len _

/-- Witness for C10: a concrete two-source mix has length 32. -/
theorem mixSources_spec_witness :
    ([[1], [2, 3]] : List Bytes) ≠ [] ∧
    (mixSources trivialHashModel [[1], [2, 3]]).length = 32 :=
  ⟨by decide, (mixSources_spec trivialHashModel).2.1 [[1], [2, 3]] (by decide)⟩

/-! ### Chain liveness and the timestamp mix (claim C6) -/

/-- Concrete injective hash model: the digest stores an injective code of
the input in its first byte position.  It satisfies the length laws and is
injective, which is the idealisation of collision-free hashing used to
instantiate the timestamp-mix theorems. -/
def encodeHashModel : HashModel where
  blake3 := fun d => Encodable.encode d :: List.replicate 31 0
  sha256 := fun d => Encodable.encode d :: List.replicate 31 1
  xof := fun d n => List.take n (Encodable.encode d :: List.replicate (n - 1) 0)
  blake3_len := fun _ => by simp
  sha256_len := fun _ => by simp
  xof_len := fun d n => by
    cases n with
    | zero => simp
    | succ m => simp

theorem encode_blake3_inj : Function.Injective encodeHashModel.blake3 := by
  intro x y h
  simp only [encodeHashModel, List.cons.injEq, and_true] at h
  exact Encodable.encode_injective h

theorem encode_xof32_inj :
    ∀ u v : Bytes, encodeHashModel.xof u 32 = encodeHashModel.xof v 32 → u = v := by
  intro u v h
  simp only [encodeHashModel] at h
  rw [List.take_of_length_le (by simp), List.take_of_length_le (by simp)] at h
  simp only [List.cons.injEq, and_true] at h
  exact Encodable.encode_injective h

theorem tsbytes_inj {t1 t2 : Nat} (h1 : t1 < 2 ^ 64) (h2 : t2 < 2 ^ 64)
    (h : tsbytes t1 = tsbytes t2) : t1 = t2 := by
  simp only [tsbytes, List.cons.injEq, and_true] at h
  omega

/-- Timestamps are the only extra input of the per-chunk loop: runs with
pointwise equal timestamps coincide. -/
theorem condChunks_congr_ts (M : HashModel) (b : Nat) (ts1 ts2 : Nat → Nat)
    (h : ∀ j, ts1 j = ts2 j) :
    ∀ (i : Nat) (cs : List Bytes) (prev : Bytes),
      condChunks M b ts1 i cs prev = condChunks M b ts2 i cs prev := by
  intro i cs
  induction cs generalizing i with
  | nil => intro prev; rfl
  | cons c cs ih =>
      intro prev
      simp only [condChunks, h i, ih (i + 1)]

/-- Expanding two distinct 32-byte chaining digests to a block of size at
least 32 keeps them distinct, provided the extensible output is injective
at that length. -/
theorem extendToSize_ne (M : HashModel) {b : Nat} {x y : Bytes}
    (hinjX : ∀ u v : Bytes, M.xof u b = M.xof v b → u = v)
    (hb : 32 ≤ b) (hx : x.length = 32) (hy : y.length = 32) (hne : x ≠ y) :
    extendToSize M x b ≠ extendToSize M y b := by
  unfold extendToSize
  rcases Nat.lt_or_ge 32 b with hgt | hge
  · rw [if_neg (by omega), if_neg (by omega)]
    exact fun h => hne (hinjX x y h)
  · have hb32 : b = 32 := le_antisymm hge hb
    subst hb32
    rw [if_pos (by omega), if_pos (by omega)]
    rw [List.take_of_length_le (by omega), List.take_of_length_le (by omega)]
    exact hne

/-- Core of the timestamp-mix property: if the first chunk is processed at
times whose 8-byte encodings differ, the first produced blocks differ. -/
theorem condChunks_ts_ne (M : HashModel) (b : Nat) (ts1 ts2 : Nat → Nat)
    (hinjB : Function.Injective M.blake3)
    (hinjX : ∀ u v : Bytes, M.xof u b = M.xof v b → u = v)
    (hb : 32 ≤ b) (i : Nat) (c : Bytes) (cs : List Bytes) (prev : Bytes)
    (hts : tsbytes (ts1 i) ≠ tsbytes (ts2 i)) :
    condChunks M b ts1 i (c :: cs) prev ≠ condChunks M b ts2 i (c :: cs) prev := by
  have hcombined : multiRoundHash M c 3 ++ tsbytes (ts1 i) ≠
      multiRoundHash M c 3 ++ tsbytes (ts2 i) :=
    fun h => hts (List.append_cancel_left h)
  have htimestamped : hashWithTimestamp M (multiRoundHash M c 3) (ts1 i) ≠
      hashWithTimestamp M (multiRoundHash M c 3) (ts2 i) :=
    fun h => hcombined (hinjB h)
  have hchained : hashChain M prev (hashWithTimestamp M (multiRoundHash M c 3) (ts1 i)) ≠
      hashChain M prev (hashWithTimestamp M (multiRoundHash M c 3) (ts2 i)) :=
    fun h => htimestamped (List.append_cancel_left (hinjB h))
  have hhead := extendToSize_ne M hinjX hb
    (M.blake3_len _) (M.blake3_len _) hchained
  simp only [condChunks]
  intro h
  exact hhead (List.head_eq_of_cons_eq h)

/-- Counterexample to claim C6 as stated: two Conditioner runs on the same
RawNoise, starting from the same initial chaining value (32 zero bytes) but
observing different wall-clock timestamps, produce different block
sequences.  Equal chaining values alone do not make runs identical, because
each chunk's digest also mixes in the current time. -/
theorem condition_same_chain_differs :
    extractEntropyBlocks encodeHashModel (List.replicate 1024 0) 32
        (fun _ => 0) (List.replicate 32 0) ≠
      extractEntropyBlocks encodeHashModel (List.replicate 1024 0) 32
        (fun _ => 1) (List.replicate 32 0) := by
  have hform : ∀ ts : Nat → Nat,
      extractEntropyBlocks encodeHashModel (List.replicate 1024 0) 32 ts
        (List.replicate 32 0) =
      condChunks encodeHashModel 32 ts 0
        [chunkAt (List.replicate 1024 0) 1024 0] (List.replicate 32 0) := by
    intro ts
    have h1 : (List.replicate 1024 (0 : Nat)) ≠ [] := by
      intro h
      have h2 := congrArg List.length h
      rw [List.length_replicate] at h2
      simp at h2
    have h2 : (List.replicate 1024 (0 : Nat)).length / max 32 1024 = 1 := by
      rw [List.length_replicate]; norm_num
    unfold extractEntropyBlocks
    rw [if_neg h1, if_neg (by rw [h2]; exact one_ne_zero), h2]
    rfl
  rw [hform, hform]
  exact condChunks_ts_ne encodeHashModel 32 (fun _ => 0) (fun _ => 1)
    encode_blake3_inj encode_xof32_inj (by omega) 0 _ [] _ (by decide)

/-- Claim C6 (amended): with the same initial chaining value AND the same
per-chunk timestamps, two Conditioner runs on the same RawNoise produce
identical block sequences; and for inputs that reach the chunked path, runs
whose first-chunk timestamps differ produce different outputs, provided the
hash primitives are injective (the idealisation of collision resistance)
and the block size is at least the 32-byte digest length. -/
theorem condition_determinism_and_timestamp (M : HashModel) (raw : Bytes)
    (b : Nat) (chain0 : Bytes) (ts1 ts2 tsa tsb : Nat → Nat)
    (hinjB : Function.Injective M.blake3)
    (hinjX : ∀ u v : Bytes, M.xof u b = M.xof v b → u = v)
    (hb : 32 ≤ b) (hchunk : max b 1024 ≤ raw.length)
    (ht1 : ts1 0 < 2 ^ 64) (ht2 : ts2 0 < 2 ^ 64) (htne : ts1 0 ≠ ts2 0)
    (htsab : ∀ j, tsa j = tsb j) :
    (extractEntropyBlocks M raw b tsa chain0 =
        extractEntropyBlocks M raw b tsb chain0) ∧
    extractEntropyBlocks M raw b ts1 chain0 ≠
      extractEntropyBlocks M raw b ts2 chain0 := by
  have hcs : 0 < max b 1024 := lt_of_lt_of_le (by norm_num) (le_max_right b 1024)
  have hraw : raw ≠ [] := by
    intro h
    rw [h] at hchunk
    simp only [List.length_nil, Nat.le_zero] at hchunk
    omega
  have hnum : raw.length / max b 1024 ≠ 0 := by
    have h1 : max b 1024 / max b 1024 ≤ raw.length / max b 1024 :=
      Nat.div_le_div_right hchunk
    rw [Nat.div_self hcs] at h1
    omega
  constructor
  · unfold extractEntropyBlocks
    rw [if_neg hraw, if_neg hnum, if_neg hraw, if_neg hnum]
    exact condChunks_congr_ts M b tsa tsb htsab 0 _ chain0
  · unfold extractEntropyBlocks
    rw [if_neg hraw, if_neg hnum, if_neg hraw, if_neg hnum]
    obtain ⟨m, hm⟩ := Nat.exists_eq_succ_of_ne_zero hnum
    rw [hm, List.range_succ_eq_map, List.map_cons]
    exact condChunks_ts_ne M b ts1 ts2 hinjB hinjX hb 0 _ _ chain0
      (fun h => htne (tsbytes_inj ht1 ht2 h))

/-- Witness for the amended C6 at the injective concrete model: determinism
with equal timestamps, and a concrete difference between a run at time 0
and a run at time 1. -/
theorem condition_determinism_and_timestamp_witness :
    (32 ≤ 32 ∧ max 32 1024 ≤ (List.replicate 1024 0 : Bytes).length ∧
      (0 : Nat) < 2 ^ 64 ∧ (1 : Nat) < 2 ^ 64 ∧ (0 : Nat) ≠ 1) ∧
    ((extractEntropyBlocks encodeHashModel (List.replicate 1024 0) 32
        (fun _ => 5) (List.replicate 32 0) =
      extractEntropyBlocks encodeHashModel (List.replicate 1024 0) 32
        (fun _ => 5) (List.replicate 32 0)) ∧
    extractEntropyBlocks encodeHashModel (List.replicate 1024 0) 32
        (fun _ => 0) (List.replicate 32 0) ≠
      extractEntropyBlocks encodeHashModel (List.replicate 1024 0) 32
        (fun _ => 1) (List.replicate 32 0)) :=
  ⟨⟨le_refl 32, by rw [List.length_replicate]; norm_num, by norm_num, by norm_num,
      by norm_num⟩,
   condition_determinism_and_timestamp encodeHashModel (List.replicate 1024 0)
     32 (List.replicate 32 0) (fun _ => 0) (fun _ => 1) (fun _ => 5) (fun _ => 5)
     encode_blake3_inj encode_xof32_inj (le_refl 32)
     (by rw [List.length_replicate]; norm_num)
     (by norm_num) (by norm_num) (by norm_num) (fun _ => rfl)⟩

/-! ## Redis store model (app/entropy/pool.py)

The pool uses three keyspaces in one Redis database:
entropy:block:<id> holding a JSON envelope with the base64 payload,
entropy:used:<id> holding a presence marker, and entropy:stats holding a
JSON counters blob.  The store is modelled as a list of keyed entries with
a TTL.  Envelope parsing (json.loads + base64) either yields the payload or
fails, which is modelled by the value constructors. -/

inductive RKey where
  | block (id : Nat)
  | used (id : Nat)
  | statsKey
deriving DecidableEq

inductive RVal where
  | env (payload : Bytes)
  | mark
  | statsBlob (blob : List Nat)
deriving DecidableEq

structure Entry where
  key : RKey
  val : RVal
  ttl : Int
deriving DecidableEq

abbrev Store := List Entry

def lookupVal : Store → RKey → Option RVal
  | [], _ => none
  | e :: st, k => if e.key = k then some e.val else lookupVal st k

/-- Embedding of redis TTL: remaining time of a key, -2 when absent. -/
def ttlOfKey : Store → RKey → Int
  | [], _ => -2
  | e :: st, k => if e.key = k then e.ttl else ttlOfKey st k

/-- Embedding of redis EXISTS. -/
def existsKey (st : Store) (k : RKey) : Bool :=
  (lookupVal st k).isSome

/-- Embedding of redis DEL of a single key. -/
def delKey : Store → RKey → Store
  | [], _ => []
  | e :: st, k => if e.key = k then delKey st k else e :: delKey st k

/-- Embedding of redis SETEX: write the value under the key with a TTL. -/
def setexStore (st : Store) (k : RKey) (t : Int) (v : RVal) : Store :=
  ⟨k, v, t⟩ :: delKey st k

/-! ### Claim C9: clear_pool -/

/-- Pattern entropy:block:* used by clear_pool and get_entropy. -/
def isBlockKey : RKey → Bool
  | .block _ => true
  | _ => false

/-- Pattern entropy:used:* used by clear_pool. -/
def isUsedKey : RKey → Bool
  | .used _ => true
  | _ => false

/-- Embedding of the KEYS(pattern) + DELETE(*keys) step of clear_pool. -/
def delMatching : Store → (RKey → Bool) → Store
  | [], _ => []
  | e :: st, pat => if pat e.key then delMatching st pat else e :: delMatching st pat

/-- Embedding of EntropyPool.clear_pool: delete all block keys, then all
used-marker keys.  The stats key is not touched. -/
def clearPool (st : Store) : Store :=
  delMatching (delMatching st isBlockKey) isUsedKey

theorem lookup_delMatching (pat : RKey → Bool) :
    ∀ (st : Store) (k : RKey),
      lookupVal (delMatching st pat) k =
        if pat k then none else lookupVal st k := by
  intro st
  induction st with
  | nil => intro k; simp only [delMatching, lookupVal]; split <;> rfl
  | cons e st ih =>
      intro k
      by_cases hp : pat e.key
      · rw [show delMatching (e :: st) pat = delMatching st pat by
          simp only [delMatching, if_pos hp], ih k]
        by_cases hpk : pat k
        · rw [if_pos hpk, if_pos hpk]
        · rw [if_neg hpk, if_neg hpk]
          have hek : ¬e.key = k := fun h => hpk (h ▸ hp)
          simp only [lookupVal, if_neg hek]
      · rw [show delMatching (e :: st) pat = e :: delMatching st pat by
          simp only [delMatching, if_neg hp]]
        by_cases hek : e.key = k
        · have hpk : ¬pat k = true := fun h => hp (hek ▸ h)
          simp only [lookupVal, if_pos hek, if_neg hpk]
        · simp only [lookupVal, if_neg hek, ih k]

/-- Claim C9: clear_pool removes every key matching entropy:block:* and
entropy:used:* and leaves the entropy:stats key unchanged, so accumulated
statistics survive a pool clear. -/
theorem clear_pool_frame (st : Store) :
    lookupVal (clearPool st) RKey.statsKey = lookupVal st RKey.statsKey ∧
    (∀ i, lookupVal (clearPool st) (RKey.block i) = none) ∧
    (∀ i, lookupVal (clearPool st) (RKey.used i) = none) := by
  unfold clearPool
  refine ⟨?_, fun i => ?_, fun i => ?_⟩
  · rw [lookup_delMatching, lookup_delMatching]
    simp [isBlockKey, isUsedKey]
  · rw [lookup_delMatching, lookup_delMatching]
    simp [isBlockKey, isUsedKey]
  · rw [lookup_delMatching]
    simp [isUsedKey]

/-! ### Claim C2: the per-block claim sequence under interleaving

EntropyPool.get_entropy claims a block with four separate store commands
run one after the other with no transaction: EXISTS entropy:used:<id>,
GET entropy:block:<id>, SETEX entropy:used:<id>, DELETE entropy:block:<id>.
A Take call is modelled as a small-step process executing exactly this
sequence for one candidate block; two processes sharing the store may
interleave at command boundaries. -/

structure Taker where
  pc : Nat
  observed : Option Bytes
deriving DecidableEq

/-- Envelope payload of a block id, when its key holds a parseable
envelope (json.loads + base64 succeed); anything else is skipped. -/
def lookupEnv (st : Store) (id : Nat) : Option Bytes :=
  match lookupVal st (RKey.block id) with
  | some (.env p) => some p
  | _ => none

/-- One store command of the claim sequence of get_entropy, lines 141-163
of pool.py: used-marker existence test, envelope read, conditional
used-marker SETEX with the block's remaining TTL, block DELETE. -/
def stepTaker (id : Nat) (st : Store) (p : Taker) : Store × Taker :=
  match p.pc with
  | 0 => if existsKey st (RKey.used id) then (st, ⟨4, p.observed⟩)
         else (st, ⟨1, p.observed⟩)
  | 1 => match lookupEnv st id with
         | none => (st, ⟨4, p.observed⟩)
         | some payload => (st, ⟨2, some payload⟩)
  | 2 => (if 0 < ttlOfKey st (RKey.block id) then
            setexStore st (RKey.used id) (ttlOfKey st (RKey.block id)) RVal.mark
          else st, ⟨3, p.observed⟩)
  | 3 => (delKey st (RKey.block id), ⟨4, p.observed⟩)
  | _ => (st, p)

/-- Run two concurrent Take claim sequences under a schedule: true steps
the first process, false the second. -/
def runSched (id : Nat) : List Bool → Store × Taker × Taker → Store × Taker × Taker
  | [], s => s
  | b :: rest, (st, p1, p2) =>
      if b then
        let r := stepTaker id st p1
        runSched id rest (r.1, r.2, p2)
      else
        let r := stepTaker id st p2
        runSched id rest (r.1, p1, r.2)

/-- Claim C2 fails on the code: the claim sequence is not atomic.  Under
the interleaving in which both Take calls pass the used-marker existence
test and read the envelope before either writes the marker or deletes the
block, both observe the same block's payload, violating at-most-once
delivery.  The schedule below is T1: EXISTS, GET; T2: EXISTS, GET; then
both finish their SETEX and DELETE steps. -/
theorem twoTakes_race :
    (runSched 1 [true, true, false, false, true, true, false, false]
        ([⟨RKey.block 1, RVal.env [9], 5⟩], ⟨0, none⟩, ⟨0, none⟩)).2.1.observed
      = some [9] ∧
    (runSched 1 [true, true, false, false, true, true, false, false]
        ([⟨RKey.block 1, RVal.env [9], 5⟩], ⟨0, none⟩, ⟨0, none⟩)).2.2.observed
      = some [9] := by
  exact ⟨by decide, by decide⟩

/-! ### Claim C1: get_entropy byte counts -/

/-- Ids of the keys returned by KEYS entropy:block:* (snapshot taken once,
before the claim loop mutates the store). -/
def blockIds (st : Store) : List Nat :=
  st.filterMap (fun e => match e.key with | .block i => some i | _ => none)

/-- Per-candidate loop of EntropyPool.get_entropy (lines 133-169): break
once enough bytes are collected, skip blocks with a used marker or an
unreadable envelope, otherwise append up to the still-needed bytes, write
the used marker when the block has positive remaining TTL, and delete the
block key. -/
def geLoop (n : Nat) : List Nat → Store → Bytes → Bytes × Store
  | [], st, coll => (coll, st)
  | id :: rest, st, coll =>
      if n ≤ coll.length then (coll, st)
      else if existsKey st (RKey.used id) then geLoop n rest st coll
      else
        match lookupEnv st id with
        | none => geLoop n rest st coll
        | some payload =>
            let coll2 := coll ++ payload.take (n - coll.length)
            let st2 := if 0 < ttlOfKey st (RKey.block id) then
                setexStore st (RKey.used id) (ttlOfKey st (RKey.block id)) RVal.mark
              else st
            geLoop n rest (delKey st2 (RKey.block id)) coll2

/-- Embedding of EntropyPool.get_entropy: empty request returns empty
bytes, an empty key scan returns None, a collection that stays empty
returns None, and otherwise the collected bytes truncated to n are
returned (the source returns them even when fewer than n were collected). -/
def getEntropy (st : Store) (n : Nat) : Option Bytes × Store :=
  if n = 0 then (some [], st)
  else if blockIds st = [] then (none, st)
  else
    let r := geLoop n (blockIds st) st []
    if r.1.length = 0 then (none, r.2) else (some (r.1.take n), r.2)

/-- Total payload bytes claimable from the listed candidate ids in the
given store state: blocks with a used marker or unreadable envelope
contribute nothing. -/
def availOn (st : Store) : List Nat → Nat
  | [] => 0
  | id :: rest =>
      (if existsKey st (RKey.used id) then 0
       else match lookupEnv st id with
         | some p => p.length
         | none => 0) + availOn st rest

theorem lookupVal_delKey (k : RKey) :
    ∀ (st : Store) (k' : RKey),
      lookupVal (delKey st k) k' = if k' = k then none else lookupVal st k' := by
  intro st
  induction st with
  | nil => intro k'; simp only [delKey, lookupVal]; split <;> rfl
  | cons e st ih =>
      intro k'
      by_cases hek : e.key = k
      · rw [show delKey (e :: st) k = delKey st k by simp only [delKey, if_pos hek],
          ih k']
        by_cases hk : k' = k
        · rw [if_pos hk, if_pos hk]
        · rw [if_neg hk, if_neg hk]
          have : ¬e.key = k' := fun h => hk (by rw [← h, hek])
          simp only [lookupVal, if_neg this]
      · rw [show delKey (e :: st) k = e :: delKey st k by simp only [delKey, if_neg hek]]
        by_cases hk : k' = k
        · have : ¬e.key = k' := fun h => hek (h.trans hk)
          simp only [lookupVal, if_neg this, ih k', if_pos hk]
        · simp only [lookupVal, ih k', if_neg hk]

theorem lookupVal_setex (st : Store) (k : RKey) (t : Int) (v : RVal) (k' : RKey) :
    lookupVal (setexStore st k t v) k' = if k' = k then some v else lookupVal st k' := by
  unfold setexStore
  by_cases hk : k' = k
  · simp only [lookupVal, if_pos (id hk.symm : k = k'), if_pos hk]
  · have : ¬k = k' := fun h => hk h.symm
    simp only [lookupVal, if_neg this, lookupVal_delKey, if_neg hk]

/-- The claim steps for one block do not change what other candidate ids
can contribute. -/
theorem availOn_congr (st1 st2 : Store) :
    ∀ ids : List Nat,
      (∀ id ∈ ids, existsKey st1 (RKey.used id) = existsKey st2 (RKey.used id) ∧
        lookupEnv st1 id = lookupEnv st2 id) →
      availOn st1 ids = availOn st2 ids := by
  intro ids
  induction ids with
  | nil => intro _; rfl
  | cons id rest ih =>
      intro h
      obtain ⟨h1, h2⟩ := h id (List.mem_cons_self id rest)
      simp only [availOn, h1, h2, ih (fun i hi => h i (List.mem_cons_of_mem id hi))]

/-- Greedy collection invariant of the claim loop: starting from a partial
collection, the loop ends with min n (collected + still-claimable) bytes.
The candidate ids must be distinct, as the key scan of a store guarantees. -/
theorem geLoop_length (n : Nat) :
    ∀ (ids : List Nat) (st : Store) (coll : Bytes),
      ids.Nodup → coll.length ≤ n →
      ((geLoop n ids st coll).1).length = min n (coll.length + availOn st ids) := by
  intro ids
  induction ids with
  | nil =>
      intro st coll _ hle
      simp only [geLoop, availOn, Nat.add_zero]
      omega
  | cons id rest ih =>
      intro st coll hnodup hle
      have hnodup2 : rest.Nodup := (List.nodup_cons.mp hnodup).2
      have hidmem : id ∉ rest := (List.nodup_cons.mp hnodup).1
      by_cases hfull : n ≤ coll.length
      · simp only [geLoop, if_pos hfull]
        omega
      · by_cases hused : existsKey st (RKey.used id) = true
        · simp only [geLoop, if_neg hfull, if_pos hused, availOn,
            ih st coll hnodup2 hle]
          omega
        · rcases henv : lookupEnv st id with _ | payload
          · simp only [geLoop, if_neg hfull, if_neg hused, henv, availOn,
              ih st coll hnodup2 hle]
            omega
          · have hcoll2 : (coll ++ payload.take (n - coll.length)).length =
                coll.length + min (n - coll.length) payload.length := by
              simp [List.length_append, List.length_take]
            have hle2 : (coll ++ payload.take (n - coll.length)).length ≤ n := by
              rw [hcoll2]; omega
            have hcong : ∀ st2 : Store,
                (∀ k', lookupVal st2 k' =
                  if k' = RKey.used id then some RVal.mark else lookupVal st k') ∨ st2 = st →
                availOn (delKey st2 (RKey.block id)) rest = availOn st rest := by
              intro st2 hst2
              refine availOn_congr _ _ rest (fun i hi => ?_)
              have hne : i ≠ id := fun h => hidmem (h ▸ hi)
              have hlu : ∀ k', lookupVal st2 k' = lookupVal st k' ∨
                  k' = RKey.used id := by
                intro k'
                rcases hst2 with h | h
                · by_cases hk : k' = RKey.used id
                  · exact Or.inr hk
                  · exact Or.inl (by rw [h k', if_neg hk])
                · exact Or.inl (by rw [h])
              constructor
              · have h1 : lookupVal (delKey st2 (RKey.block id)) (RKey.used i) =
                    lookupVal st2 (RKey.used i) := by
                  rw [lookupVal_delKey]
                  exact if_neg (by simp)
                have h2 : lookupVal st2 (RKey.used i) = lookupVal st (RKey.used i) := by
                  rcases hlu (RKey.used i) with h | h
                  · exact h
                  · exact absurd (by injection h) hne
                unfold existsKey
                rw [h1, h2]
              · have h1 : lookupVal (delKey st2 (RKey.block id)) (RKey.block i) =
                    lookupVal st2 (RKey.block i) := by
                  rw [lookupVal_delKey]
                  exact if_neg (by simp [hne])
                have h2 : lookupVal st2 (RKey.block i) = lookupVal st (RKey.block i) := by
                  rcases hlu (RKey.block i) with h | h
                  · exact h
                  · exact absurd h (by simp)
                unfold lookupEnv
                rw [h1, h2]
            simp only [geLoop, if_neg hfull, if_neg hused, henv]
            split
            · rw [ih _ _ hnodup2 hle2,
                hcong _ (Or.inl (fun k' => lookupVal_setex st _ _ _ k')),
                hcoll2]
              simp only [availOn, if_neg hused, henv]
              omega
            · rw [ih _ _ hnodup2 hle2, hcong _ (Or.inr rfl), hcoll2]
              simp only [availOn, if_neg hused, henv]
              omega

/-- Counterexample to claim C1 as stated: on a pool whose single block
holds 2 bytes, Take(5) does not fail — it succeeds and returns the 2
collected bytes, a partial result. -/
theorem pool_take_partial_counterexample :
    (getEntropy [⟨RKey.block 1, RVal.env [7, 7], 5⟩] 5).1 = some [7, 7] ∧
    ([7, 7] : Bytes).length ≠ 5 :=
  ⟨by decide, by decide⟩

/-- Claim C1 (amended): a Take(n) that succeeds returns
min(n, claimable) bytes, where claimable is the total payload length of
candidate blocks without a used marker: exactly n bytes when the pool
holds at least n claimable bytes, and a partial result of all claimable
bytes otherwise (the code only fails when nothing at all was collected). -/
theorem pool_take_length_min (st : Store) (n : Nat) (out : Bytes)
    (hnodup : (blockIds st).Nodup)
    (hout : (getEntropy st n).1 = some out) :
    out.length = min n (availOn st (blockIds st)) := by
  unfold getEntropy at hout
  by_cases hn : n = 0
  · rw [if_pos hn] at hout
    have : out = [] := by
      simpa using hout.symm
    subst this
    rw [hn]
    simp
  · rw [if_neg hn] at hout
    by_cases hids : blockIds st = []
    · rw [if_pos hids] at hout
      exact absurd hout (by simp)
    · rw [if_neg hids] at hout
      have hlen := geLoop_length n (blockIds st) st [] hnodup (by simp)
      simp only [List.length_nil, Nat.zero_add] at hlen
      by_cases hempty : (geLoop n (blockIds st) st []).1.length = 0
      · rw [if_pos hempty] at hout
        exact absurd hout (by simp)
      · rw [if_neg hempty] at hout
        have hout2 : out = (geLoop n (blockIds st) st []).1.take n := by
          simpa using hout.symm
        subst hout2
        rw [List.length_take, hlen]
        omega

/-- Witness for the amended C1 at a concrete pool: one block of 3 bytes,
Take(3) returns all 3 = min 3 available. -/
theorem pool_take_length_min_witness :
    ((blockIds [⟨RKey.block 1, RVal.env [5, 6, 7], 5⟩]).Nodup ∧
      (getEntropy [⟨RKey.block 1, RVal.env [5, 6, 7], 5⟩] 3).1 = some [5, 6, 7]) ∧
    ([5, 6, 7] : Bytes).length =
      min 3 (availOn [⟨RKey.block 1, RVal.env [5, 6, 7], 5⟩]
        (blockIds [⟨RKey.block 1, RVal.env [5, 6, 7], 5⟩])) :=
  ⟨⟨by decide, by decide⟩,
   pool_take_length_min [⟨RKey.block 1, RVal.env [5, 6, 7], 5⟩] 3 [5, 6, 7]
     (by decide) (by decide)⟩

/-! ## Validator model (app/entropy/validation.py)

The validator computes with Python floats; it is embedded over the real
numbers.  Each statistical test mirrors one method of EntropyValidator.
The result dictionary additionally rounds quality_score and
shannon_entropy to 4 digits for display; the pass predicate uses the
unrounded values, which are the ones modelled here. -/

noncomputable section

/-- Embedding of EntropyValidator.calculate_shannon_entropy: minus the sum
of p log2 p over the byte values occurring in the data. -/
def shannonEntropy (d : Bytes) : ℝ :=
  if d = [] then 0
  else ∑ v ∈ d.toFinset,
    -((d.count v : ℝ) / d.length * Real.logb 2 ((d.count v : ℝ) / d.length))

/-- Embedding of EntropyValidator.chi_square_test: the chi-square
statistic against the uniform expectation len/256, normalised by
1 / (1 + |chi - 255| / 100); inputs shorter than 256 bytes score 0. -/
def chiSquare (d : Bytes) : ℝ :=
  if d = [] ∨ d.length < 256 then 0
  else
    (1 : ℝ) / (1 + |(∑ i ∈ Finset.range 256,
      ((d.count i : ℝ) - (d.length : ℝ) / 256) ^ 2 / ((d.length : ℝ) / 256)) - 255| / 100)

/-- Run counter of EntropyValidator.runs_test: one run, plus one for each
adjacent unequal pair. -/
def runsCount : List Nat → Nat
  | [] => 1
  | [_] => 1
  | a :: b :: t => (if a ≠ b then 1 else 0) + runsCount (b :: t)

/-- Median as computed by the source: sorted(data)[len(data) // 2]. -/
def medianOf (d : Bytes) : Nat :=
  (List.insertionSort (· ≤ ·) d).getD (d.length / 2) 0

/-- Binarisation of EntropyValidator.runs_test: 1 for bytes at or above
the median, 0 below. -/
def binarize (d : Bytes) (m : Nat) : List Nat :=
  d.map (fun b => if m ≤ b then 1 else 0)

/-- Local runs of EntropyValidator.runs_test: runs of the binarised data. -/
def runsOf (d : Bytes) : Nat :=
  runsCount (binarize d (medianOf d))

/-- Local n1 of EntropyValidator.runs_test: count of ones in the
binarised data. -/
def onesOf (d : Bytes) : Nat :=
  (binarize d (medianOf d)).sum

/-- Local n0 of EntropyValidator.runs_test: length minus n1. -/
def zerosOf (d : Bytes) : Nat :=
  (binarize d (medianOf d)).length - onesOf d

/-- Local expected_runs of EntropyValidator.runs_test. -/
def runsExpected (d : Bytes) : ℝ :=
  2 * (zerosOf d : ℝ) * (onesOf d : ℝ) / ((zerosOf d : ℝ) + (onesOf d : ℝ)) + 1

/-- Local variance of EntropyValidator.runs_test. -/
def runsVariance (d : Bytes) : ℝ :=
  2 * (zerosOf d : ℝ) * (onesOf d : ℝ) *
      (2 * (zerosOf d : ℝ) * (onesOf d : ℝ) - (zerosOf d : ℝ) - (onesOf d : ℝ)) /
    (((zerosOf d : ℝ) + (onesOf d : ℝ)) ^ 2 * ((zerosOf d : ℝ) + (onesOf d : ℝ) - 1))

/-- Embedding of EntropyValidator.runs_test (Wald-Wolfowitz z-score turned
into max(0, 1 - z/4)); inputs shorter than 10 bytes score 0. -/
def runsTest (d : Bytes) : ℝ :=
  if d = [] ∨ d.length < 10 then 0
  else if onesOf d = 0 ∨ zerosOf d = 0 then 0
  else if runsVariance d = 0 then 0
  else max 0 (1 - |((runsOf d : ℝ) - runsExpected d) / Real.sqrt (runsVariance d)| / 4)

/-- Embedding of EntropyValidator.autocorrelation_test at a given lag. -/
def autocorrTest (d : Bytes) (lag : Nat) : ℝ :=
  if d = [] ∨ d.length ≤ lag then 0
  else
    let m : ℝ := (d.sum : ℝ) / d.length
    let num := ∑ i ∈ Finset.range (d.length - lag),
      ((d.getD i 0 : ℝ) - m) * ((d.getD (i + lag) 0 : ℝ) - m)
    let den := ∑ i ∈ Finset.range (d.length - lag), ((d.getD i 0 : ℝ) - m) ^ 2
    if den = 0 then 0 else max 0 (1 - |num / den|)

/-- Set bits of one byte, as counted bit position by bit position in
EntropyValidator.bit_entropy_test. -/
def popcount8 (b : Nat) : Nat :=
  ((List.range 8).filter (fun i => b.testBit i)).length

/-- Embedding of EntropyValidator.bit_entropy_test. -/
def bitEntropyTest (d : Bytes) : ℝ :=
  if d = [] then 0
  else max 0 (1 - |((d.map popcount8).sum : ℝ) / (8 * d.length : ℕ) - 0.5| * 2)

/-- Error kinds of EntropyValidator.validate. -/
inductive VErr where
  | emptyData
deriving DecidableEq

/-- Result record of EntropyValidator.validate (the fields the claims are
about; passed is a proposition because it compares real numbers). -/
structure VResult where
  passed : Prop
  quality : ℝ
  shannon : ℝ
  err : Option VErr

/-- Embedding of EntropyValidator.validate with threshold min_shannon
(7.8 on the default validator instance). -/
def validate (minShannon : ℝ) (d : Bytes) : VResult :=
  if d = [] then ⟨False, 0, 0, some VErr.emptyData⟩
  else
    let sh := shannonEntropy d
    let q := sh / 8 * 0.4 + chiSquare d * 0.25 + runsTest d * 0.15 +
      autocorrTest d 1 * 0.10 + bitEntropyTest d * 0.10
    ⟨minShannon ≤ sh ∧ 0.75 ≤ q, q, sh, none⟩

end

/-- Claim C3: for every non-empty byte string, validate computes
quality_score = 0.4(H/8) + 0.25 chi + 0.15 runs + 0.10 autocorr +
0.10 bit_balance over the five metric scores, and passes exactly when
H ≥ min_shannon (default 7.8) and quality_score ≥ 0.75. -/
theorem validate_quality_formula (d : Bytes) (hd : d ≠ []) :
    (validate 7.8 d).quality =
      0.4 * (shannonEntropy d / 8) + 0.25 * chiSquare d + 0.15 * runsTest d +
        0.10 * autocorrTest d 1 + 0.10 * bitEntropyTest d ∧
    ((validate 7.8 d).passed ↔
      7.8 ≤ shannonEntropy d ∧ 0.75 ≤ (validate 7.8 d).quality) := by
  unfold validate
  rw [if_neg hd]
  exact ⟨by ring, Iff.rfl⟩

/-- Witness for C3 at the one-byte input. -/
theorem validate_quality_formula_witness :
    ([0] : Bytes) ≠ [] ∧
    ((validate 7.8 [0]).quality =
      0.4 * (shannonEntropy [0] / 8) + 0.25 * chiSquare [0] + 0.15 * runsTest [0] +
        0.10 * autocorrTest [0] 1 + 0.10 * bitEntropyTest [0] ∧
    ((validate 7.8 [0]).passed ↔
      7.8 ≤ shannonEntropy [0] ∧ 0.75 ≤ (validate 7.8 [0]).quality)) :=
  ⟨by decide, validate_quality_formula [0] (by decide)⟩

/-- Claim C8: the chi-square test returns 0 for data shorter than 256
bytes, the runs test returns 0 for data shorter than 10 bytes, and the
empty input yields passed = false with quality_score 0 and the empty-input
error kind. -/
theorem validator_edge_guards :
    (∀ d : Bytes, d.length < 256 → chiSquare d = 0) ∧
    (∀ d : Bytes, d.length < 10 → runsTest d = 0) ∧
    (¬(validate 7.8 []).passed ∧ (validate 7.8 []).quality = 0 ∧
      (validate 7.8 []).err = some VErr.emptyData) := by
  refine ⟨fun d h => ?_, fun d h => ?_, ?_, ?_, ?_⟩
  · unfold chiSquare
    rw [if_pos (Or.inr h)]
  · unfold runsTest
    rw [if_pos (Or.inr h)]
  · show ¬(validate 7.8 []).passed
    unfold validate
    rw [if_pos rfl]
    exact not_false
  · unfold validate
    rw [if_pos rfl]
  · unfold validate
    rw [if_pos rfl]

/-- Witness for C8 at one-byte data. -/
theorem validator_edge_guards_witness :
    (([1] : Bytes).length < 256 ∧ chiSquare [1] = 0) ∧
    (([1] : Bytes).length < 10 ∧ runsTest [1] = 0) :=
  ⟨⟨by decide, validator_edge_guards.1 [1] (by decide)⟩,
   ⟨by decide, validator_edge_guards.2.1 [1] (by decide)⟩⟩

/-! ## Extractor model (app/preprocessing/noise_extraction.py)

The per-frame reducers (cv2 Laplacian pipeline of extract_laplacian_noise,
the FFT high-pass of extract_fft_high_freq, the Sobel gradient magnitude
of extract_pixel_differences, BGR channel splitting, grayscale conversion
and the nondeterministic 32x32 region sampler) are numpy/OpenCV library
computations over an image; they are abstracted as functions over an
opaque image type.  What extract_noise itself does — the part written in
this repository — is the byte collection: it extends one bytearray with
the flattened output of each reducer, in a fixed order, and returns the
collected bytes without any XOR mixing or whitening (the commented-out
_xor_mix is never called). -/

structure ExtractorModel (Img : Type) where
  channels : Img → List Img
  gray : Img → Img
  lapBytes : Img → Bytes
  fftBytes : Img → Bytes
  sobelBytes : Img → Bytes
  regions : Img → List Img

/-- Embedding of ImagePreprocessor.extract_noise for a decodable frame:
collected_bytes is extended with the Laplacian bytes of every colour
channel, then the FFT high-pass bytes of the grayscale image, then the
Sobel gradient bytes, then the Laplacian bytes of each sampled region,
mirroring the statement order of the source. -/
def extractNoise {Img : Type} (E : ExtractorModel Img) (img : Img) : Bytes :=
  let collected := (E.channels img).foldl (fun acc ch => acc ++ E.lapBytes ch) []
  let collected := collected ++ E.fftBytes (E.gray img)
  let collected := collected ++ E.sobelBytes (E.gray img)
  (E.regions (E.gray img)).foldl (fun acc r => acc ++ E.lapBytes r) collected

theorem foldl_append_eq_flatten {α : Type} (f : α → Bytes) :
    ∀ (l : List α) (init : Bytes),
      l.foldl (fun acc x => acc ++ f x) init = init ++ (l.map f).flatten := by
  intro l
  induction l with
  | nil => intro init; simp
  | cons x l ih =>
      intro init
      simp only [List.foldl_cons, List.map_cons, List.flatten_cons, ih,
        List.append_assoc]

/-- Claim C7: the Extractor output is exactly the concatenation, in order,
of the per-channel Laplacian bytes, the FFT high-pass bytes of the
luminance image, the Sobel gradient-magnitude bytes, and the Laplacian
bytes of the sampled regions — pure concatenation, with no XOR mixing or
whitening applied to the collected bytes. -/
theorem extract_noise_concatenation {Img : Type} (E : ExtractorModel Img)
    (img : Img) :
    extractNoise E img =
      ((E.channels img).map E.lapBytes).flatten ++
        E.fftBytes (E.gray img) ++
        E.sobelBytes (E.gray img) ++
        ((E.regions (E.gray img)).map E.lapBytes).flatten := by
  unfold extractNoise
  rw [foldl_append_eq_flatten, foldl_append_eq_flatten]
  simp [List.append_assoc]

/-! ### Claim C5: pathological inputs fail validation

The three pathological inputs at the 4096-byte block size: the all-zero
string, constant-byte strings and the modular counter.  The counter facts
are proved through its block structure: 16 repetitions of the byte range
0..255. -/

/-- The modular counter sequence: byte i equals i mod 256. -/
def counterSeq : Bytes := (List.range 4096).map (fun i => i % 256)

theorem range_mul_mod (n : Nat) :
    ∀ k : Nat, (List.range (k * n)).map (fun i => i % n) =
      (List.replicate k (List.range n)).flatten := by
  intro k
  induction k with
  | zero => simp
  | succ k ih =>
      have hkn : (k + 1) * n = k * n + n := by ring
      rw [hkn, List.range_add, List.map_append, ih, List.map_map]
      have hmap : (List.range n).map ((fun i => i % n) ∘ (fun x => k * n + x)) =
          List.range n := by
        have hfun : ∀ x ∈ List.range n,
            ((fun i => i % n) ∘ (fun x => k * n + x)) x = x := by
          intro x hx
          have hx2 := List.mem_range.mp hx
          show (k * n + x) % n = x
          rw [Nat.add_comm, Nat.add_mul_mod_self_right, Nat.mod_eq_of_lt hx2]
        rw [List.map_congr_left hfun, List.map_id']
      rw [hmap, List.replicate_succ', List.flatten_append]
      simp

theorem counterSeq_flatten :
    counterSeq = (List.replicate 16 (List.range 256)).flatten := by
  unfold counterSeq
  rw [show (4096 : Nat) = 16 * 256 from rfl, range_mul_mod 256 16]

theorem counterSeq_length : counterSeq.length = 4096 := by
  unfold counterSeq
  rw [List.length_map, List.length_range]

theorem counterSeq_ne_nil : counterSeq ≠ [] :=
  List.ne_nil_of_length_pos (by rw [counterSeq_length]; norm_num)

theorem count_range_aux (v : Nat) :
    ∀ n : Nat, (List.range n).count v = if v < n then 1 else 0 := by
  intro n
  induction n with
  | zero => simp
  | succ n ih =>
      rw [List.range_succ, List.count_append, ih, List.count_singleton]
      simp only [beq_iff_eq]
      split_ifs <;> omega

theorem count_counterSeq (v : Nat) :
    counterSeq.count v = if v < 256 then 16 else 0 := by
  rw [counterSeq_flatten, List.count_flatten, List.map_replicate,
    count_range_aux v 256, List.sum_replicate, smul_eq_mul]
  split_ifs <;> omega

theorem mem_counterSeq (v : Nat) : v ∈ counterSeq ↔ v < 256 := by
  unfold counterSeq
  constructor
  · intro h
    obtain ⟨i, _, hiv⟩ := List.mem_map.mp h
    rw [← hiv]
    exact Nat.mod_lt i (by norm_num)
  · intro h
    exact List.mem_map.mpr ⟨v, List.mem_range.mpr (by omega), Nat.mod_eq_of_lt h⟩

/-- The sorted form of the counter: 16 copies of each byte value in
ascending order. -/
def sortedCounter : Bytes :=
  ((List.range 256).map (fun v => List.replicate 16 v)).flatten

theorem count_sortedCounter_aux (a : Nat) :
    ∀ n : Nat,
      ((((List.range n).map (fun v => List.replicate 16 v)).flatten).count a) =
        if a < n then 16 else 0 := by
  intro n
  induction n with
  | zero => simp
  | succ n ih =>
      rw [List.range_succ, List.map_append, List.flatten_append,
        List.count_append, ih]
      simp only [List.map_cons, List.map_nil, List.flatten_cons,
        List.flatten_nil, List.append_nil, List.count_replicate, beq_iff_eq]
      split_ifs <;> omega

theorem counterSeq_perm_sorted : counterSeq.Perm sortedCounter := by
  rw [List.perm_iff_count]
  intro a
  rw [count_counterSeq a]
  unfold sortedCounter
  rw [count_sortedCounter_aux a 256]

theorem sorted_sortedCounter_aux :
    ∀ n : Nat,
      List.Sorted (· ≤ ·)
        (((List.range n).map (fun v => List.replicate 16 v)).flatten) := by
  intro n
  induction n with
  | zero => simp
  | succ n ih =>
      rw [List.range_succ, List.map_append, List.flatten_append]
      refine List.pairwise_append.mpr ⟨ih, ?_, ?_⟩
      · simp only [List.map_cons, List.map_nil, List.flatten_cons,
          List.flatten_nil, List.append_nil]
        exact List.pairwise_replicate.mpr (Or.inr (le_refl n))
      · intro a ha b hb
        simp only [List.map_cons, List.map_nil, List.flatten_cons,
          List.flatten_nil, List.append_nil] at hb
        obtain ⟨l, hl, hal⟩ := List.mem_flatten.mp ha
        obtain ⟨v, hv, rfl⟩ := List.mem_map.mp hl
        have hav : a = v := (List.mem_replicate.mp hal).2
        have hbv : b = n := (List.mem_replicate.mp hb).2
        have hvn : v < n := List.mem_range.mp hv
        omega

theorem sorted_sortedCounter : List.Sorted (· ≤ ·) sortedCounter :=
  sorted_sortedCounter_aux 256

theorem insertionSort_counterSeq :
    List.insertionSort (· ≤ ·) counterSeq = sortedCounter :=
  List.eq_of_perm_of_sorted
    ((List.perm_insertionSort (· ≤ ·) counterSeq).trans counterSeq_perm_sorted)
    (List.sorted_insertionSort (· ≤ ·) counterSeq)
    sorted_sortedCounter

theorem sortedCounter_getD : sortedCounter.getD 2048 0 = 128 := by
  unfold sortedCounter
  rw [show (256 : Nat) = 128 + 128 from rfl, List.range_add, List.map_append,
    List.flatten_append]
  have hlenA :
      ((((List.range 128).map (fun v => List.replicate 16 v))).flatten).length
        = 2048 := by
    rw [List.length_flatten, List.map_map]
    rw [show (List.range 128).map (List.length ∘ fun v => List.replicate 16 v)
        = (List.range 128).map (Function.const Nat 16) from
      List.map_congr_left (fun x _ => by simp [Function.const])]
    rw [List.map_const, List.length_range, List.sum_replicate, smul_eq_mul]
  rw [List.getD_append_right _ _ _ _ (le_of_eq hlenA), hlenA]
  rw [List.map_map]
  rw [show List.range 128 = 0 :: List.map Nat.succ (List.range 127) from
    List.range_succ_eq_map 127]
  rw [List.map_cons, List.flatten_cons]
  show (List.replicate 16 (128 + 0) ++ _).getD (2048 - 2048) 0 = 128
  rw [show (2048 - 2048 : Nat) = 0 from rfl,
    show List.replicate 16 (128 + 0) = 128 :: List.replicate 15 128 from rfl,
    List.cons_append, List.getD_cons_zero]

theorem median_counterSeq : medianOf counterSeq = 128 := by
  unfold medianOf
  rw [insertionSort_counterSeq, counterSeq_length,
    show (4096 / 2 : Nat) = 2048 from rfl]
  exact sortedCounter_getD

/-- One period of the binarised counter: 128 zeros then 128 ones. -/
def halfPattern : Bytes := List.replicate 128 0 ++ List.replicate 128 1

theorem binarize_flatten (L : List Bytes) (m : Nat) :
    binarize L.flatten m = (L.map (fun l => binarize l m)).flatten := by
  unfold binarize
  rw [List.map_flatten]

theorem binarize_range256 : binarize (List.range 256) 128 = halfPattern := by
  rfl

theorem binarize_counterSeq :
    binarize counterSeq 128 = (List.replicate 16 halfPattern).flatten := by
  rw [counterSeq_flatten, binarize_flatten, List.map_replicate, binarize_range256]

theorem runsCount_cons_cons (a b : Nat) (l : List Nat) :
    runsCount (a :: b :: l) = (if a ≠ b then 1 else 0) + runsCount (b :: l) := rfl

theorem runsCount_replicate_cons (c : Nat) (l : List Nat) :
    ∀ n : Nat, runsCount (List.replicate (n + 1) c ++ l) = runsCount (c :: l) := by
  intro n
  induction n with
  | zero => rfl
  | succ n ih =>
      have hhead : List.replicate (n + 1) c ++ l = c :: (List.replicate n c ++ l) := by
        rw [List.replicate_succ, List.cons_append]
      rw [List.replicate_succ, List.cons_append, hhead, runsCount_cons_cons,
        if_neg (by simp), ← hhead, ih, Nat.zero_add]

theorem runsCount_two_blocks (a b : Nat) (hab : a ≠ b) (t : List Nat)
    (m n : Nat) :
    runsCount (List.replicate (m + 1) a ++
        (List.replicate (n + 1) b ++ (a :: t))) =
      2 + runsCount (a :: t) := by
  rw [runsCount_replicate_cons a _ m]
  have hexp : List.replicate (n + 1) b ++ (a :: t) =
      b :: (List.replicate n b ++ (a :: t)) := by
    rw [List.replicate_succ, List.cons_append]
  rw [hexp, runsCount_cons_cons, if_pos hab, ← hexp,
    runsCount_replicate_cons b _ n, runsCount_cons_cons,
    if_pos (fun h => hab h.symm)]
  omega

theorem runsCount_two_blocks_nil (a b : Nat) (hab : a ≠ b) (m n : Nat) :
    runsCount (List.replicate (m + 1) a ++ List.replicate (n + 1) b) = 2 := by
  rw [runsCount_replicate_cons a _ m]
  have hexp : List.replicate (n + 1) b = b :: List.replicate n b := by
    rw [List.replicate_succ]
  rw [hexp, runsCount_cons_cons, if_pos hab, ← hexp]
  rw [show List.replicate (n + 1) b = List.replicate (n + 1) b ++ [] from
    (List.append_nil _).symm]
  rw [runsCount_replicate_cons b [] n]
  rfl

theorem halfPattern_cons :
    halfPattern = 0 :: (List.replicate 127 0 ++ List.replicate 128 1) := rfl

theorem runsCount_halfPattern_chain :
    ∀ k : Nat,
      runsCount ((List.replicate (k + 1) halfPattern).flatten) = 2 * (k + 1) := by
  intro k
  induction k with
  | zero =>
      show runsCount (halfPattern ++ [].flatten) = 2
      rw [show ([] : List Bytes).flatten = [] from rfl, List.append_nil]
      exact runsCount_two_blocks_nil 0 1 (by omega) 127 127
  | succ k ih =>
      show runsCount (halfPattern ++ (List.replicate (k + 1) halfPattern).flatten)
        = 2 * (k + 2)
      have hshape : (List.replicate (k + 1) halfPattern).flatten =
          0 :: (List.replicate 127 0 ++ List.replicate 128 1 ++
            (List.replicate k halfPattern).flatten) := by
        rw [List.replicate_succ, List.flatten_cons, halfPattern_cons,
          List.cons_append, List.append_assoc]
      rw [hshape]
      rw [show halfPattern ++
          (0 :: (List.replicate 127 0 ++ List.replicate 128 1 ++
            (List.replicate k halfPattern).flatten)) =
          List.replicate 128 0 ++ (List.replicate 128 1 ++
            (0 :: (List.replicate 127 0 ++ List.replicate 128 1 ++
              (List.replicate k halfPattern).flatten))) from by
        rw [halfPattern]; rw [List.append_assoc]]
      rw [runsCount_two_blocks 0 1 (by omega) _ 127 127, ← hshape, ih]
      ring

theorem runs_counterSeq_val : runsOf counterSeq = 32 := by
  unfold runsOf
  rw [median_counterSeq, binarize_counterSeq,
    show (16 : Nat) = 15 + 1 from rfl, runsCount_halfPattern_chain 15]

theorem ones_counterSeq : onesOf counterSeq = 2048 := by
  unfold onesOf
  rw [median_counterSeq, binarize_counterSeq, List.sum_flatten,
    List.map_replicate, List.sum_replicate]
  rw [show halfPattern.sum = 128 from by
    rw [halfPattern, List.sum_append, List.sum_replicate, List.sum_replicate,
      smul_eq_mul, smul_eq_mul]]
  rw [smul_eq_mul]

theorem binarize_counterSeq_length : (binarize counterSeq (medianOf counterSeq)).length = 4096 := by
  rw [median_counterSeq, binarize_counterSeq, List.length_flatten,
    List.map_replicate, List.sum_replicate]
  rw [show halfPattern.length = 256 from by
    rw [halfPattern, List.length_append, List.length_replicate,
      List.length_replicate]]
  rw [smul_eq_mul]

theorem zerosOf_eq (d : Bytes) :
    zerosOf d = (binarize d (medianOf d)).length - onesOf d := rfl

theorem zeros_counterSeq : zerosOf counterSeq = 2048 := by
  rw [zerosOf_eq, binarize_counterSeq_length, ones_counterSeq]

theorem runsExpected_counterSeq : runsExpected counterSeq = 2049 := by
  unfold runsExpected
  rw [ones_counterSeq, zeros_counterSeq]
  norm_num

theorem runsVariance_counterSeq :
    runsVariance counterSeq = 8388608 * 8384512 / 68702699520 := by
  unfold runsVariance
  rw [ones_counterSeq, zeros_counterSeq]
  norm_num

/-- A Wald-Wolfowitz score is clamped to 0 as soon as the squared
z-statistic reaches 16. -/
theorem score_zero_of_z_ge_four (x er v : ℝ) (hv : 0 < v)
    (h : 16 * v ≤ (er - x) ^ 2) (hxe : x ≤ er) :
    max 0 (1 - |(x - er) / Real.sqrt v| / 4) = 0 := by
  have hs : 0 < Real.sqrt v := Real.sqrt_pos.mpr hv
  have habs : |(x - er) / Real.sqrt v| = (er - x) / Real.sqrt v := by
    rw [abs_div, abs_of_pos hs, abs_sub_comm, abs_of_nonneg (by linarith)]
  rw [habs]
  have hq4 : (0 : ℝ) ≤ (er - x) / 4 := by linarith
  have hsq : Real.sqrt v ≤ (er - x) / 4 := by
    rw [Real.sqrt_le_left hq4]
    nlinarith
  have h4 : 4 ≤ (er - x) / Real.sqrt v := by
    rw [le_div_iff₀ hs]
    linarith
  exact max_eq_left (by linarith)

theorem runs_counterSeq : runsTest counterSeq = 0 := by
  unfold runsTest
  rw [if_neg (by
    push_neg
    exact ⟨counterSeq_ne_nil, by rw [counterSeq_length]; norm_num⟩)]
  rw [if_neg (by
    push_neg
    rw [ones_counterSeq, zeros_counterSeq]
    norm_num)]
  rw [if_neg (by
    rw [runsVariance_counterSeq]
    norm_num)]
  rw [runs_counterSeq_val, runsExpected_counterSeq, runsVariance_counterSeq]
  push_cast
  exact score_zero_of_z_ge_four 32 2049 (8388608 * 8384512 / 68702699520)
    (by norm_num) (by norm_num) (by norm_num)

theorem shannon_counterSeq : shannonEntropy counterSeq = 8 := by
  unfold shannonEntropy
  rw [if_neg counterSeq_ne_nil]
  have htf : counterSeq.toFinset = Finset.range 256 := by
    ext v
    rw [List.mem_toFinset, mem_counterSeq, Finset.mem_range]
  rw [htf]
  have hterm : ∀ v ∈ Finset.range 256,
      -((counterSeq.count v : ℝ) / counterSeq.length *
        Real.logb 2 ((counterSeq.count v : ℝ) / counterSeq.length)) =
        8 / 256 := by
    intro v hv
    have hc : counterSeq.count v = 16 := by
      rw [count_counterSeq v, if_pos (Finset.mem_range.mp hv)]
    rw [hc, counterSeq_length]
    have hp : ((16 : ℕ) : ℝ) / ((4096 : ℕ) : ℝ) = 1 / 256 := by
      push_cast
      norm_num
    rw [hp]
    have hlog : Real.logb 2 ((1 : ℝ) / 256) = -8 := by
      rw [show (1 : ℝ) / 256 = ((2 : ℝ) ^ (8 : ℕ))⁻¹ by norm_num,
        Real.logb_inv, Real.logb_pow,
        Real.logb_self_eq_one (by norm_num : (1 : ℝ) < 2)]
      norm_num
    rw [hlog]
    norm_num
  rw [Finset.sum_congr rfl hterm, Finset.sum_const, Finset.card_range,
    nsmul_eq_mul]
  norm_num

theorem chi_counterSeq : chiSquare counterSeq = 20 / 71 := by
  unfold chiSquare
  rw [if_neg (by
    push_neg
    exact ⟨counterSeq_ne_nil, by rw [counterSeq_length]; norm_num⟩)]
  have hsum : (∑ i ∈ Finset.range 256,
      ((counterSeq.count i : ℝ) - (counterSeq.length : ℝ) / 256) ^ 2 /
        ((counterSeq.length : ℝ) / 256)) = 0 := by
    apply Finset.sum_eq_zero
    intro i hi
    rw [count_counterSeq i, if_pos (Finset.mem_range.mp hi), counterSeq_length]
    norm_num
  rw [hsum, zero_sub, abs_neg, abs_of_nonneg (by norm_num : (0 : ℝ) ≤ 255)]
  norm_num

theorem max_zero_one_sub_abs_le (x : ℝ) : max 0 (1 - |x|) ≤ 1 :=
  max_le (by norm_num) (by linarith [abs_nonneg x])

theorem autocorrTest_le_one (d : Bytes) (lag : Nat) : autocorrTest d lag ≤ 1 := by
  simp only [autocorrTest]
  split
  · norm_num
  · split
    · norm_num
    · exact max_zero_one_sub_abs_le _

theorem bitEntropyTest_le_one (d : Bytes) : bitEntropyTest d ≤ 1 := by
  simp only [bitEntropyTest]
  split
  · norm_num
  · refine max_le (by norm_num) ?_
    have h2 : (0 : ℝ) ≤
        |((d.map popcount8).sum : ℝ) / ((8 * d.length : ℕ) : ℝ) - 0.5| * 2 :=
      mul_nonneg (abs_nonneg _) (by norm_num)
    linarith

theorem replicate_ne_nil (L c : Nat) (hL : L ≠ 0) : List.replicate L c ≠ [] := by
  intro h
  have h2 := congrArg List.length h
  rw [List.length_replicate, List.length_nil] at h2
  exact hL h2

theorem shannon_replicate (L c : Nat) (hL : L ≠ 0) :
    shannonEntropy (List.replicate L c) = 0 := by
  unfold shannonEntropy
  rw [if_neg (replicate_ne_nil L c hL)]
  have htf : (List.replicate L c).toFinset = {c} := by
    ext v
    rw [List.mem_toFinset, List.mem_replicate]
    simp [hL]
  rw [htf, Finset.sum_singleton, List.count_replicate_self, List.length_replicate]
  rw [div_self (by exact_mod_cast hL : ((L : ℕ) : ℝ) ≠ 0), Real.logb_one]
  ring

theorem validate_quality_eq (minS : ℝ) (d : Bytes) (hd : d ≠ []) :
    (validate minS d).quality =
      shannonEntropy d / 8 * 0.4 + chiSquare d * 0.25 + runsTest d * 0.15 +
        autocorrTest d 1 * 0.10 + bitEntropyTest d * 0.10 := by
  unfold validate
  rw [if_neg hd]

theorem validate_passed_iff (minS : ℝ) (d : Bytes) (hd : d ≠ []) :
    (validate minS d).passed ↔
      minS ≤ shannonEntropy d ∧ 0.75 ≤ (validate minS d).quality := by
  unfold validate
  rw [if_neg hd]

/-- Claim C5: at the 4096-byte block size, the all-zero string, every
constant-byte string, and the modular counter sequence (byte i equal to
i mod 256) all fail validation: validate returns passed = false on each. -/
theorem validator_rejects_pathological :
    ¬(validate 7.8 (List.replicate 4096 0)).passed ∧
    (∀ c : Nat, ¬(validate 7.8 (List.replicate 4096 c)).passed) ∧
    ¬(validate 7.8 counterSeq).passed := by
  have hconst : ∀ c : Nat, ¬(validate 7.8 (List.replicate 4096 c)).passed := by
    intro c hp
    rw [validate_passed_iff 7.8 _ (replicate_ne_nil 4096 c (by norm_num))] at hp
    rw [shannon_replicate 4096 c (by norm_num)] at hp
    have h1 := hp.1
    norm_num at h1
  refine ⟨hconst 0, hconst, ?_⟩
  intro hp
  rw [validate_passed_iff 7.8 _ counterSeq_ne_nil] at hp
  have hq := hp.2
  rw [validate_quality_eq 7.8 _ counterSeq_ne_nil, shannon_counterSeq,
    chi_counterSeq, runs_counterSeq] at hq
  have ha := autocorrTest_le_one counterSeq 1
  have hb := bitEntropyTest_le_one counterSeq
  linarith

end SpaceEntropy
